import Mathlib

/-!
Verification of the crypto module of this repository (src/lib/crypto.js):
a shallow embedding of the `Crypto` class — authenticated encryption of
small strings with a key held in a clearable secure cell and provisioned
from an OS credential store — together with proofs of the specified
properties.

Modelling conventions:
* JS strings are `List Char` (`Str` below); JS byte buffers holding key
  material are collapsed to the string they encode (the source only ever
  round-trips them through `Buffer.from(s, 'utf8')` / `toString('utf8')`).
* Randomness (`crypto.randomBytes`) is an explicit parameter: encrypt takes
  the drawn nonce bytes, `init` takes a stream of drawn key bytes.
* The AES-256-GCM primitive (node's `createCipheriv`/`createDecipheriv`,
  external to this repository) is an abstract `CipherSuite` record; the
  claims that depend on its behaviour take its correctness at the used
  points as hypotheses.
* Thrown `SfdxError`s become `Except CryptoError`.
-/

/-- A JS string, modelled as its list of characters. -/
abbrev Str := List Char

/-- Constant `TAG_DELIMITER = ':'` from src/lib/crypto.js line 17. -/
def TAG_DELIMITER : Char := ':'

/-- Constant `BYTE_COUNT_FOR_IV = 6` from src/lib/crypto.js line 18. -/
def BYTE_COUNT_FOR_IV : Nat := 6

/-- Lower-case hex digit for a nibble, as produced by node's
`Buffer.toString('hex')`. -/
def hexDigit (n : Nat) : Char :=
  if n < 10 then Char.ofNat (48 + n) else Char.ofNat (87 + n)

/-- Hex-encoding of a byte list, as `Buffer.toString('hex')`: two lower-case
hex characters per byte. Bytes are reduced mod 256 (node buffers store
bytes). -/
def hexEncode : List Nat → Str
  | [] => []
  | b :: bs => hexDigit (b % 256 / 16) :: hexDigit (b % 16) :: hexEncode bs

/-- Character class of lower-case hex output: `0`-`9` or `a`-`f`. -/
def isHexChar (c : Char) : Bool :=
  (48 ≤ c.toNat && c.toNat ≤ 57) || (97 ≤ c.toNat && c.toNat ≤ 102)

/-- A string whose characters are all lower-case hex digits. -/
def IsHexStr (s : Str) : Prop := ∀ c ∈ s, isHexChar c = true

instance (s : Str) : Decidable (IsHexStr s) := by
  unfold IsHexStr; infer_instance

/-- JS `String.prototype.split` with a single-character separator:
`"abc".split(':') = ["abc"]`, `":".split(':') = ["", ""]`. -/
def splitOnChar (sep : Char) : Str → List Str
  | [] => [[]]
  | c :: cs =>
    if c = sep then [] :: splitOnChar sep cs
    else
      match splitOnChar sep cs with
      | [] => [[c]]
      | t :: ts => (c :: t) :: ts

/-- Errors raised by the crypto module (`SfdxError` names from
src/lib/crypto.js, plus the spec-level ones for the collaborators). -/
inductive CryptoError where
  /-- `KeychainPasswordCreationError`, thrown by `encrypt` when `_key` is
  `null` (src/lib/crypto.js lines 78-81). -/
  | KeychainPasswordCreationError
  /-- `InvalidEncryptedFormatError`, thrown by `decrypt` when the input does
  not split into exactly two segments (lines 100-104). -/
  | InvalidEncryptedFormatError
  /-- `AuthDecryptError` (the spec's `DecryptionError`), thrown when the
  underlying authenticated decipher fails (lines 111-123). -/
  | AuthDecryptError
  /-- Missing-key failure (the spec's `KeyUnavailable` / `NoKeyLoaded`)
  raised by the secure cell's scoped borrow when the cell is empty
  (spec section 4.1). -/
  | NoKeyLoaded
  /-- A JS `TypeError` from calling a method on a `null` field; modelled so
  that `decrypt`'s unguarded `this._key.value(...)` (line 108) is total. -/
  | NullKeyDeref
  deriving DecidableEq

/-- Modelled from the spec: `SecureBuffer` (the SecureKeyCell of spec
sections 2-4), whose source src/lib/secureBuffer is not under src/. It wraps
at most one key; `consume` stores (last write wins), `value` is the scoped
borrow failing with the missing-key error when empty, `clear` empties. The
key bytes are collapsed to the UTF-8 string they encode. -/
structure SecureBuffer where
  contents : Option Str
  deriving DecidableEq

/-- Modelled from the spec: a freshly constructed `SecureBuffer` is empty. -/
def SecureBuffer.new : SecureBuffer := ⟨none⟩

/-- Modelled from the spec: `consume` stores the bytes as the current key,
overwriting any previous key. -/
def SecureBuffer.consume (_b : SecureBuffer) (s : Str) : SecureBuffer := ⟨some s⟩

/-- Modelled from the spec: `value`/`withValue` invokes the callback on the
held key, and fails with the missing-key error when the cell is empty. The
callback may itself fail (decrypt's callback throws on tamper). -/
def SecureBuffer.value (b : SecureBuffer) (f : Str → Except CryptoError α) :
    Except CryptoError α :=
  match b.contents with
  | none => .error .NoKeyLoaded
  | some s => f s

/-- Modelled from the spec: `clear` zeroes the backing storage and empties
the cell. -/
def SecureBuffer.clear (_b : SecureBuffer) : SecureBuffer := ⟨none⟩

instance {ε α : Type} [DecidableEq ε] [DecidableEq α] : DecidableEq (Except ε α)
  | .ok x, .ok y =>
    if h : x = y then isTrue (by rw [h])
    else isFalse (fun he => h (Except.ok.inj he))
  | .ok _, .error _ => isFalse Except.noConfusion
  | .error _, .ok _ => isFalse Except.noConfusion
  | .error e, .error f =>
    if h : e = f then isTrue (by rw [h])
    else isFalse (fun he => h (Except.error.inj he))

/-- The abstract authenticated-cipher primitive (node's
`createCipheriv`/`createDecipheriv` with `aes-256-gcm`, external to this
repository). `enc key ivHex plaintext` returns the hex ciphertext and hex
auth tag; `dec key ivHex ctHex tagHex` returns the recovered plaintext, or
`none` when the decipher throws (bad tag, corrupted data, wrong key). -/
structure CipherSuite where
  enc : Str → Str → Str → Str × Str
  dec : Str → Str → Str → Str → Option Str

/-- The only value the source ever compares `options.retryStatus` against:
the string `'KEY_SET'` (src/lib/crypto.js line 158). -/
inductive RetryStatus where
  | KEY_SET
  deriving DecidableEq

/-- Constructor options of `Crypto` (the fields the embedded code reads):
`retryStatus` and `noResetOnClose`. `platform` and `keychain` resolution are
orthogonal to every claim and elided. -/
structure CryptoOptions where
  retryStatus : Option RetryStatus
  noResetOnClose : Bool
  deriving DecidableEq

/-- The `Crypto` instance state: `_key` (an `Option` because JS fields are
nullable — the guard at line 78 tests `this._key == null`), the
`noResetOnClose` flag set by `init` (line 145, `undefined` hence `false`
before `init`), and the construction options. -/
structure Crypto where
  key : Option SecureBuffer
  noResetOnClose : Bool
  options : CryptoOptions
  deriving DecidableEq

/-- The constructor (src/lib/crypto.js lines 65-69): `this._key = new
SecureBuffer()`. -/
def Crypto.construct (options : CryptoOptions) : Crypto :=
  { key := some SecureBuffer.new, noResetOnClose := false, options := options }

/-- `Crypto.encrypt` (src/lib/crypto.js lines 74-90). `ivBytes` are the 6
bytes drawn by `crypto.randomBytes(BYTE_COUNT_FOR_IV)`. Returns `.ok none`
for `null` input (JS `undefined`), otherwise the envelope
`iv_hex ++ ciphertext_hex ++ ':' ++ tag_hex`. -/
def Crypto.encrypt (suite : CipherSuite) (c : Crypto) (ivBytes : List Nat)
    (text : Option Str) : Except CryptoError (Option Str) :=
  match text with
  | none => .ok none
  | some t =>
    match c.key with
    | none => .error .KeychainPasswordCreationError
    | some kb =>
      let iv := hexEncode ivBytes
      kb.value fun keyStr =>
        let et := suite.enc keyStr iv t
        .ok (some (iv ++ et.1 ++ TAG_DELIMITER :: et.2))

/-- The parsing stage of `Crypto.decrypt` (src/lib/crypto.js lines 99-107):
split on the delimiter, require exactly two segments, then take the tag from
segment 2, the nonce from the first `BYTE_COUNT_FOR_IV * 2` characters of
segment 1, and the ciphertext from the remainder of segment 1. Returns
`(iv, secret, tag)`. -/
def parseEnvelope (t : Str) : Option (Str × Str × Str) :=
  let tokens := splitOnChar TAG_DELIMITER t
  if tokens.length = 2 then
    let tag := tokens.getD 1 []
    let iv := (tokens.getD 0 []).take (BYTE_COUNT_FOR_IV * 2)
    let secret := (tokens.getD 0 []).drop (BYTE_COUNT_FOR_IV * 2)
    some (iv, secret, tag)
  else none

/-- `Crypto.decrypt` (src/lib/crypto.js lines 95-126). Returns `.ok none`
for `null` input; `InvalidEncryptedFormatError` unless the split yields
exactly two segments; otherwise borrows the key and runs the decipher,
wrapping a decipher failure as `AuthDecryptError`. -/
def Crypto.decrypt (suite : CipherSuite) (c : Crypto) (text : Option Str) :
    Except CryptoError (Option Str) :=
  match text with
  | none => .ok none
  | some t =>
    match parseEnvelope t with
    | none => .error .InvalidEncryptedFormatError
    | some (iv, secret, tag) =>
      match c.key with
      | none => .error .NullKeyDeref
      | some kb =>
        kb.value fun keyStr =>
          match suite.dec keyStr iv secret tag with
          | some dec => .ok (some dec)
          | none => .error .AuthDecryptError

/-- `Crypto.close` (src/lib/crypto.js lines 130-134): clear the key cell
unless `noResetOnClose`. -/
def Crypto.close (c : Crypto) : Crypto :=
  if c.noResetOnClose then c
  else { c with key := c.key.map SecureBuffer.clear }

/-- Store-level errors surfaced by the keychain adapter; the source only
inspects `err.name === 'PasswordNotFoundError'` (line 156). -/
inductive StoreErrorName where
  | passwordNotFound
  | other (code : Nat)
  deriving DecidableEq

/-- An error rejected by the keychain adapter. -/
structure StoreError where
  name : StoreErrorName
  deriving DecidableEq

/-- The credential-store adapter consumed by `init` (the `keychainPromises`
wrapper, src/lib/crypto.js lines 26-54), as a deterministic transition
system over a store state `σ`. The service and account arguments are the
constants `KEY_NAME = 'sfdx'` and `ACCOUNT = 'local'` and are elided. -/
structure Keychain (σ : Type) where
  getPassword : σ → Except StoreError Str × σ
  setPassword : σ → Str → Except StoreError Unit × σ

/-- Outcome of running `Crypto.init` with bounded fuel: success with the
updated instance, a thrown error, or fuel exhaustion (the recursion at
line 167 did not terminate within the fuel). Each outcome carries the final
store state. -/
inductive InitResult (σ : Type) where
  | ok (c : Crypto) (st : σ)
  | error (e : StoreError) (st : σ)
  | diverge (st : σ)
  deriving DecidableEq

/-- `Crypto.init` (src/lib/crypto.js lines 138-172), fueled because the
source recursion `return this.init()` is unbounded. `randKeys attempt` are
the 16 bytes drawn by `crypto.randomBytes(Math.ceil(16))` on that attempt
(hex-encoded by the code, line 164). Faithful to the source, the
`retryStatus` option read at line 158 is never written: the recursive call
re-reads the unchanged `c.options.retryStatus`. -/
def Crypto.initFuel {σ : Type} (kc : Keychain σ) (randKeys : Nat → List Nat)
    (c : Crypto) (attempt : Nat) : Nat → σ → InitResult σ
  | 0, st => .diverge st
  | fuel + 1, st =>
    let c1 := { c with noResetOnClose := c.options.noResetOnClose }
    match kc.getPassword st with
    | (.ok pw, st1) => .ok { c1 with key := c1.key.map (fun kb => kb.consume pw) } st1
    | (.error e, st1) =>
      if e.name = .passwordNotFound then
        if c.options.retryStatus = some .KEY_SET then .error e st1
        else
          let key := hexEncode (randKeys attempt)
          match kc.setPassword st1 key with
          | (.ok _, st2) => Crypto.initFuel kc randKeys c (attempt + 1) fuel st2
          | (.error e2, st2) => .error e2 st2
      else .error e st1

/-- Concrete store state used to observe `init`'s interaction with the
keychain: the stored secret and call counters. -/
structure StoreState where
  stored : Option Str
  getCalls : Nat
  setCalls : Nat
  deriving DecidableEq

/-- A keychain whose `getPassword` always rejects with
`PasswordNotFoundError`, even after a `setPassword` (the store of the
bounded-retry property). -/
def alwaysNotFoundKeychain : Keychain StoreState :=
  { getPassword := fun st =>
      (.error ⟨.passwordNotFound⟩, { st with getCalls := st.getCalls + 1 })
    setPassword := fun st k =>
      (.ok (), { st with stored := some k, setCalls := st.setCalls + 1 }) }

/-- A keychain that rejects with `PasswordNotFoundError` on the first
`getPassword` and thereafter returns the stored secret (the store of the
provisioning property). -/
def flakyFirstKeychain : Keychain StoreState :=
  { getPassword := fun st =>
      if st.getCalls = 0 then
        (.error ⟨.passwordNotFound⟩, { st with getCalls := st.getCalls + 1 })
      else
        match st.stored with
        | some p => (.ok p, { st with getCalls := st.getCalls + 1 })
        | none => (.error ⟨.passwordNotFound⟩, { st with getCalls := st.getCalls + 1 })
    setPassword := fun st k =>
      (.ok (), { st with stored := some k, setCalls := st.setCalls + 1 }) }

/-- Flip bit `b` of the character code of `c`: a byte-level corruption of one
character of the envelope text (all envelope characters are ASCII). -/
def flipChar (b : Nat) (c : Char) : Char := Char.ofNat (c.toNat ^^^ (1 <<< b))

/-- Flip bit `b` of the character at position `i` of a string (identity when
`i` is out of range). -/
def flipBit : Str → Nat → Nat → Str
  | [], _, _ => []
  | c :: cs, 0, b => flipChar b c :: cs
  | c :: cs, i + 1, b => c :: flipBit cs i b

/-- Concrete key string used by the evaluation instances. -/
def kW : Str := ['k']

/-- Concrete plaintext used by the evaluation instances. -/
def ptW : Str := ['h', 'i']

/-- Concrete hex ciphertext produced by the evaluation cipher. -/
def ctW : Str := ['2', '2']

/-- Concrete hex auth tag produced by the evaluation cipher. -/
def tagW : Str := ['a', 'b']

/-- Concrete nonce bytes (the 6 bytes drawn by `randomBytes`). -/
def ivBW : List Nat := [0, 0, 0, 0, 0, 0]

/-- Hex encoding of `ivBW` (12 characters). -/
def ivHexW : Str := hexEncode ivBW

/-- A concrete cipher suite for evaluating the generic theorems: it encrypts
everything to the fixed pair `(ctW, tagW)` and deciphers exactly that pair
under the right key and nonce, rejecting (returning `none`, i.e. throwing)
every other ciphertext/tag — an idealised authenticated cipher at one
point. -/
def rigidSuite : CipherSuite where
  enc := fun _ _ _ => (ctW, tagW)
  dec := fun k iv ct tg =>
    if k = kW ∧ iv = ivHexW ∧ ct = ctW ∧ tg = tagW then some ptW else none

/-- A concrete `Crypto` instance holding the key `kW`, with
`noResetOnClose` unset. -/
def cryptoW : Crypto :=
  { key := some ⟨some kW⟩, noResetOnClose := false
    options := { retryStatus := none, noResetOnClose := false } }

/-- A concrete `Crypto` instance holding the key `kW`, with
`noResetOnClose` set. -/
def cryptoW9 : Crypto :=
  { key := some ⟨some kW⟩, noResetOnClose := true
    options := { retryStatus := none, noResetOnClose := true } }

/-- The concrete envelope `encrypt` produces from `ptW` under `rigidSuite`
with nonce bytes `ivBW`. -/
def envW : Str := ivHexW ++ ctW ++ TAG_DELIMITER :: tagW

/-- Reachable `Crypto` instance states: freshly constructed, then evolved by
`close` and by successful `init` runs (`encrypt`/`decrypt` do not modify the
instance). -/
inductive Reachable : Crypto → Prop where
  | construct (options : CryptoOptions) : Reachable (Crypto.construct options)
  | close {c : Crypto} : Reachable c → Reachable (Crypto.close c)
  | init {σ : Type} {kc : Keychain σ} {randKeys : Nat → List Nat}
      {c c' : Crypto} {attempt fuel : Nat} {st st' : σ} :
      Reachable c →
      Crypto.initFuel kc randKeys c attempt fuel st = .ok c' st' →
      Reachable c'

/-- C8: encrypt and decrypt return `undefined` (`.ok none`) exactly on null
input: null input yields `.ok none` with no error, and a non-null input
never yields `.ok none`. -/
theorem encrypt_decrypt_null_propagation (suite : CipherSuite) (c : Crypto)
    (ivBytes : List Nat) :
    Crypto.encrypt suite c ivBytes none = .ok none ∧
    Crypto.decrypt suite c none = .ok none ∧
    (∀ t : Str, Crypto.encrypt suite c ivBytes (some t) ≠ .ok none) ∧
    (∀ t : Str, Crypto.decrypt suite c (some t) ≠ .ok none) := by
  refine ⟨rfl, rfl, ?_, ?_⟩
  · intro t h
    cases hk : c.key with
    | none => simp [Crypto.encrypt, hk] at h
    | some kb =>
      cases hc : kb.contents with
      | none => simp [Crypto.encrypt, SecureBuffer.value, hk, hc] at h
      | some s => simp [Crypto.encrypt, SecureBuffer.value, hk, hc] at h
  · intro t h
    cases hp : parseEnvelope t with
    | none => simp [Crypto.decrypt, hp] at h
    | some triple =>
      obtain ⟨iv, secret, tag⟩ := triple
      cases hk : c.key with
      | none => simp [Crypto.decrypt, hp, hk] at h
      | some kb =>
        cases hc : kb.contents with
        | none => simp [Crypto.decrypt, SecureBuffer.value, hp, hk, hc] at h
        | some s =>
          cases hd : suite.dec s iv secret tag with
          | none => simp [Crypto.decrypt, SecureBuffer.value, hp, hk, hc, hd] at h
          | some dec => simp [Crypto.decrypt, SecureBuffer.value, hp, hk, hc, hd] at h

/-- Every nibble maps to a hex character. -/
theorem isHexChar_hexDigit : ∀ n, n < 16 → isHexChar (hexDigit n) = true := by
  decide

/-- Hex encoding produces only hex characters. -/
theorem isHexStr_hexEncode (bs : List Nat) : IsHexStr (hexEncode bs) := by
  induction bs with
  | nil => intro c hc; cases hc
  | cons b bs ih =>
    intro c hc
    simp only [hexEncode, List.mem_cons] at hc
    rcases hc with h | h | h
    · subst h
      exact isHexChar_hexDigit _ (Nat.div_lt_of_lt_mul (Nat.mod_lt _ (by omega)))
    · subst h
      exact isHexChar_hexDigit _ (Nat.mod_lt _ (by omega))
    · exact ih c h

/-- A hex character is not the delimiter. -/
theorem ne_delim_of_isHexChar {c : Char} (h : isHexChar c = true) :
    c ≠ TAG_DELIMITER := by
  intro he
  rw [he] at h
  exact absurd h (by decide)

/-- The delimiter does not occur in a hex string. -/
theorem delim_not_mem_of_isHexStr {s : Str} (h : IsHexStr s) :
    TAG_DELIMITER ∉ s :=
  fun hm => ne_delim_of_isHexChar (h _ hm) rfl

/-- Hex encoding doubles the length. -/
theorem hexEncode_length (bs : List Nat) :
    (hexEncode bs).length = 2 * bs.length := by
  induction bs with
  | nil => rfl
  | cons b bs ih => simp [hexEncode, ih]; omega

/-- The split of a string is never the empty list. -/
theorem splitOnChar_ne_nil (sep : Char) (s : Str) : splitOnChar sep s ≠ [] := by
  induction s with
  | nil => simp [splitOnChar]
  | cons c cs ih =>
    by_cases h : c = sep
    · simp [splitOnChar, h]
    · simp only [splitOnChar, if_neg h]
      cases hs : splitOnChar sep cs with
      | nil => simp
      | cons t ts => simp

/-- Splitting a string free of the separator returns it whole. -/
theorem splitOnChar_no_sep {sep : Char} {a : Str} (h : sep ∉ a) :
    splitOnChar sep a = [a] := by
  induction a with
  | nil => rfl
  | cons c cs ih =>
    have hc : ¬(c = sep) := fun he => h (he ▸ List.mem_cons_self c cs)
    have hcs : sep ∉ cs := fun hm => h (List.mem_cons_of_mem _ hm)
    simp only [splitOnChar, if_neg hc, ih hcs]

/-- Splitting past a first separator occurrence. -/
theorem splitOnChar_append {sep : Char} {a : Str} (b : Str) (h : sep ∉ a) :
    splitOnChar sep (a ++ sep :: b) = a :: splitOnChar sep b := by
  induction a with
  | nil => simp [splitOnChar]
  | cons c cs ih =>
    have hc : ¬(c = sep) := fun he => h (he ▸ List.mem_cons_self c cs)
    have hcs : sep ∉ cs := fun hm => h (List.mem_cons_of_mem _ hm)
    simp only [List.cons_append, splitOnChar, if_neg hc, List.append_eq, ih hcs]

/-- Parsing a well-formed envelope recovers nonce, ciphertext and tag. -/
theorem parseEnvelope_eq {ivh ct tag : Str} (hiv : ivh.length = 12)
    (h1 : TAG_DELIMITER ∉ ivh) (h2 : TAG_DELIMITER ∉ ct)
    (h3 : TAG_DELIMITER ∉ tag) :
    parseEnvelope (ivh ++ ct ++ TAG_DELIMITER :: tag) = some (ivh, ct, tag) := by
  have hac : TAG_DELIMITER ∉ ivh ++ ct := by
    intro hm
    rcases List.mem_append.mp hm with h | h
    · exact h1 h
    · exact h2 h
  have hsplit : splitOnChar TAG_DELIMITER ((ivh ++ ct) ++ TAG_DELIMITER :: tag) =
      [ivh ++ ct, tag] := by
    rw [splitOnChar_append _ hac, splitOnChar_no_sep h3]
  have hlen : ivh.length = BYTE_COUNT_FOR_IV * 2 := by rw [hiv]; decide
  have ht : List.take (BYTE_COUNT_FOR_IV * 2) (ivh ++ ct) = ivh :=
    List.take_left' hlen
  have hd : List.drop (BYTE_COUNT_FOR_IV * 2) (ivh ++ ct) = ct :=
    List.drop_left' hlen
  unfold parseEnvelope
  rw [show ivh ++ ct ++ TAG_DELIMITER :: tag =
    (ivh ++ ct) ++ TAG_DELIMITER :: tag from rfl, hsplit]
  simp [ht, hd]

/-- What `encrypt` returns on a populated cell. -/
theorem encrypt_eq (suite : CipherSuite) {c : Crypto} {kb : SecureBuffer}
    {k : Str} (ivBytes : List Nat) (s : Str)
    (hk : c.key = some kb) (hc : kb.contents = some k) :
    Crypto.encrypt suite c ivBytes (some s) =
      .ok (some (hexEncode ivBytes ++ (suite.enc k (hexEncode ivBytes) s).1 ++
        TAG_DELIMITER :: (suite.enc k (hexEncode ivBytes) s).2)) := by
  simp [Crypto.encrypt, hk, SecureBuffer.value, hc]

/-- What `decrypt` returns once the envelope parses and the cell is
populated. -/
theorem decrypt_eq (suite : CipherSuite) {c : Crypto} {kb : SecureBuffer}
    {k t iv secret tag : Str}
    (hk : c.key = some kb) (hc : kb.contents = some k)
    (hp : parseEnvelope t = some (iv, secret, tag)) :
    Crypto.decrypt suite c (some t) =
      match suite.dec k iv secret tag with
      | some d => .ok (some d)
      | none => .error .AuthDecryptError := by
  simp [Crypto.decrypt, hp, hk, SecureBuffer.value, hc]

/-- Round-trip workhorse: encrypt produces the wire envelope, and decrypt of
that envelope recovers the plaintext, given the cipher's correctness at the
used point. -/
theorem roundtrip_aux (suite : CipherSuite) {c : Crypto} {kb : SecureBuffer}
    {k ct tag : Str} {ivBytes : List Nat} {s : Str}
    (hk : c.key = some kb) (hc : kb.contents = some k)
    (henc : suite.enc k (hexEncode ivBytes) s = (ct, tag))
    (hct : IsHexStr ct) (htag : IsHexStr tag) (hiv : ivBytes.length = 6)
    (hdec : suite.dec k (hexEncode ivBytes) ct tag = some s) :
    Crypto.encrypt suite c ivBytes (some s) =
      .ok (some (hexEncode ivBytes ++ ct ++ TAG_DELIMITER :: tag)) ∧
    Crypto.decrypt suite c
        (some (hexEncode ivBytes ++ ct ++ TAG_DELIMITER :: tag)) =
      .ok (some s) := by
  have hivlen : (hexEncode ivBytes).length = 12 := by
    rw [hexEncode_length, hiv]
  have hp := parseEnvelope_eq hivlen
    (delim_not_mem_of_isHexStr (isHexStr_hexEncode ivBytes))
    (delim_not_mem_of_isHexStr hct) (delim_not_mem_of_isHexStr htag)
  constructor
  · rw [encrypt_eq suite ivBytes s hk hc, henc]
  · rw [decrypt_eq suite hk hc hp, hdec]

/-- C3: for every non-null string `s` and every `Crypto` instance whose key
cell holds a suite-correct key (expressed as the cipher primitive's
correctness at the used key, nonce and plaintext), `decrypt (encrypt s)`
returns `s`. -/
theorem decrypt_encrypt_roundtrip (suite : CipherSuite) (c : Crypto)
    (k ct tag : Str) (ivBytes : List Nat) (s : Str)
    (hkey : c.key = some ⟨some k⟩)
    (henc : suite.enc k (hexEncode ivBytes) s = (ct, tag))
    (hct : IsHexStr ct) (htag : IsHexStr tag) (hiv : ivBytes.length = 6)
    (hdec : suite.dec k (hexEncode ivBytes) ct tag = some s) :
    ∃ env, Crypto.encrypt suite c ivBytes (some s) = .ok (some env) ∧
      Crypto.decrypt suite c (some env) = .ok (some s) :=
  ⟨hexEncode ivBytes ++ ct ++ TAG_DELIMITER :: tag,
    (roundtrip_aux suite hkey rfl henc hct htag hiv hdec).1,
    (roundtrip_aux suite hkey rfl henc hct htag hiv hdec).2⟩

/-- Witness for C3 at a concrete instance. -/
theorem decrypt_encrypt_roundtrip_witness :
    ∃ env, Crypto.encrypt rigidSuite cryptoW ivBW (some ptW) = .ok (some env) ∧
      Crypto.decrypt rigidSuite cryptoW (some env) = .ok (some ptW) :=
  decrypt_encrypt_roundtrip rigidSuite cryptoW kW ctW tagW ivBW ptW
    rfl rfl (by decide) (by decide) (by decide) (by decide)

/-- C5: for every non-null input, `decrypt` fails with
`InvalidEncryptedFormatError` if and only if splitting the input on the
delimiter yields a number of segments different from two. -/
theorem decrypt_invalid_format_iff (suite : CipherSuite) (c : Crypto)
    (t : Str) :
    Crypto.decrypt suite c (some t) = .error .InvalidEncryptedFormatError ↔
      (splitOnChar TAG_DELIMITER t).length ≠ 2 := by
  constructor
  · intro h hlen
    have hpn : parseEnvelope t ≠ none := by
      simp [parseEnvelope, hlen]
    cases hpe : parseEnvelope t with
    | none => exact hpn hpe
    | some triple =>
      obtain ⟨iv, secret, tg⟩ := triple
      cases hk : c.key with
      | none => simp [Crypto.decrypt, hpe, hk] at h
      | some kb =>
        cases hc : kb.contents with
        | none => simp [Crypto.decrypt, hpe, hk, SecureBuffer.value, hc] at h
        | some s =>
          cases hd : suite.dec s iv secret tg with
          | none => simp [Crypto.decrypt, hpe, hk, SecureBuffer.value, hc, hd] at h
          | some d => simp [Crypto.decrypt, hpe, hk, SecureBuffer.value, hc, hd] at h
  · intro hlen
    have hp : parseEnvelope t = none := by simp [parseEnvelope, if_neg hlen]
    simp [Crypto.decrypt, hp]

/-- C7: the envelope has shape `nonce_hex ++ ciphertext_hex ++ ':' ++
tag_hex`, the nonce is exactly 12 hex characters, the delimiter occurs
exactly once in the envelope, and the parsing stage of `decrypt` recovers
segment 2 as the tag, the first 12 characters of segment 1 as the nonce and
the remainder of segment 1 as the ciphertext. -/
theorem encrypt_envelope_format (suite : CipherSuite) (c : Crypto)
    (k ct tag : Str) (ivBytes : List Nat) (s : Str)
    (hkey : c.key = some ⟨some k⟩)
    (henc : suite.enc k (hexEncode ivBytes) s = (ct, tag))
    (hct : IsHexStr ct) (htag : IsHexStr tag) (hiv : ivBytes.length = 6) :
    Crypto.encrypt suite c ivBytes (some s) =
      .ok (some (hexEncode ivBytes ++ ct ++ TAG_DELIMITER :: tag)) ∧
    (hexEncode ivBytes).length = 12 ∧ IsHexStr (hexEncode ivBytes) ∧
    (hexEncode ivBytes ++ ct ++ TAG_DELIMITER :: tag).count TAG_DELIMITER = 1 ∧
    parseEnvelope (hexEncode ivBytes ++ ct ++ TAG_DELIMITER :: tag) =
      some (hexEncode ivBytes, ct, tag) := by
  have hivlen : (hexEncode ivBytes).length = 12 := by
    rw [hexEncode_length, hiv]
  have hivhex := isHexStr_hexEncode ivBytes
  refine ⟨?_, hivlen, hivhex, ?_, ?_⟩
  · rw [encrypt_eq suite ivBytes s hkey rfl, henc]
  · rw [List.count_append, List.count_append]
    rw [List.count_eq_zero.mpr (delim_not_mem_of_isHexStr hivhex),
      List.count_eq_zero.mpr (delim_not_mem_of_isHexStr hct)]
    simp [List.count_cons_self, List.count_eq_zero.mpr (delim_not_mem_of_isHexStr htag)]
  · exact parseEnvelope_eq hivlen (delim_not_mem_of_isHexStr hivhex)
      (delim_not_mem_of_isHexStr hct) (delim_not_mem_of_isHexStr htag)

/-- Witness for C7 at a concrete instance. -/
theorem encrypt_envelope_format_witness :
    Crypto.encrypt rigidSuite cryptoW ivBW (some ptW) =
      .ok (some (hexEncode ivBW ++ ctW ++ TAG_DELIMITER :: tagW)) ∧
    (hexEncode ivBW).length = 12 ∧ IsHexStr (hexEncode ivBW) ∧
    (hexEncode ivBW ++ ctW ++ TAG_DELIMITER :: tagW).count TAG_DELIMITER = 1 ∧
    parseEnvelope (hexEncode ivBW ++ ctW ++ TAG_DELIMITER :: tagW) =
      some (hexEncode ivBW, ctW, tagW) :=
  encrypt_envelope_format rigidSuite cryptoW kW ctW tagW ivBW ptW
    rfl rfl (by decide) (by decide) (by decide)

/-- C9: with `noResetOnClose` set and a loaded key, `close` leaves the
instance (hence the key cell) unchanged, and encrypt and decrypt still
succeed afterwards. -/
theorem noResetOnClose_preserves_key (suite : CipherSuite) (c : Crypto)
    (k ct tag : Str) (ivBytes : List Nat) (s : Str)
    (hnrc : c.noResetOnClose = true)
    (hkey : c.key = some ⟨some k⟩)
    (henc : suite.enc k (hexEncode ivBytes) s = (ct, tag))
    (hct : IsHexStr ct) (htag : IsHexStr tag) (hiv : ivBytes.length = 6)
    (hdec : suite.dec k (hexEncode ivBytes) ct tag = some s) :
    Crypto.close c = c ∧ (Crypto.close c).key = some ⟨some k⟩ ∧
    Crypto.encrypt suite (Crypto.close c) ivBytes (some s) =
      .ok (some (hexEncode ivBytes ++ ct ++ TAG_DELIMITER :: tag)) ∧
    Crypto.decrypt suite (Crypto.close c)
        (some (hexEncode ivBytes ++ ct ++ TAG_DELIMITER :: tag)) =
      .ok (some s) := by
  have hcl : Crypto.close c = c := by simp [Crypto.close, hnrc]
  rw [hcl]
  exact ⟨rfl, hkey, (roundtrip_aux suite hkey rfl henc hct htag hiv hdec).1,
    (roundtrip_aux suite hkey rfl henc hct htag hiv hdec).2⟩

/-- Witness for C9 at a concrete instance. -/
theorem noResetOnClose_preserves_key_witness :
    Crypto.close cryptoW9 = cryptoW9 ∧
    (Crypto.close cryptoW9).key = some ⟨some kW⟩ ∧
    Crypto.encrypt rigidSuite (Crypto.close cryptoW9) ivBW (some ptW) =
      .ok (some (hexEncode ivBW ++ ctW ++ TAG_DELIMITER :: tagW)) ∧
    Crypto.decrypt rigidSuite (Crypto.close cryptoW9)
        (some (hexEncode ivBW ++ ctW ++ TAG_DELIMITER :: tagW)) =
      .ok (some ptW) :=
  noResetOnClose_preserves_key rigidSuite cryptoW9 kW ctW tagW ivBW ptW
    rfl rfl rfl (by decide) (by decide) (by decide) (by decide)

/-- C2 counterexample: after `close()` (with `noResetOnClose` unset), a
decrypt call on a malformed input fails with `InvalidEncryptedFormatError`,
not with the missing-key error — the format check precedes the key borrow —
so not every post-close call fails with the missing-key error. -/
theorem close_missing_key_counterexample :
    Crypto.decrypt rigidSuite (Crypto.close cryptoW)
        (some ['a', ':', 'b', ':', 'c']) =
      .error .InvalidEncryptedFormatError ∧
    CryptoError.InvalidEncryptedFormatError ≠ CryptoError.NoKeyLoaded := by
  decide

/-- C2 (amended): after `close()` with `noResetOnClose` unset, every
subsequent `encrypt` call with non-null input fails with the missing-key
error, and every subsequent `decrypt` call with non-null input that splits
into exactly two delimiter segments fails with the missing-key error (null
inputs still return `undefined`, and inputs not splitting into exactly two
segments still fail with `InvalidEncryptedFormatError`). -/
theorem close_then_missing_key (suite : CipherSuite) (c : Crypto)
    (ivBytes : List Nat) (t u : Str)
    (hnrc : c.noResetOnClose = false)
    (hkb : ∃ kb, c.key = some kb)
    (hsplit : (splitOnChar TAG_DELIMITER u).length = 2) :
    Crypto.encrypt suite (Crypto.close c) ivBytes (some t) =
      .error .NoKeyLoaded ∧
    Crypto.decrypt suite (Crypto.close c) (some u) = .error .NoKeyLoaded := by
  obtain ⟨kb, hk⟩ := hkb
  have hkey : (Crypto.close c).key = some (SecureBuffer.clear kb) := by
    simp [Crypto.close, hnrc, hk]
  have hp : parseEnvelope u = some
      (((splitOnChar TAG_DELIMITER u).getD 0 []).take (BYTE_COUNT_FOR_IV * 2),
       ((splitOnChar TAG_DELIMITER u).getD 0 []).drop (BYTE_COUNT_FOR_IV * 2),
       (splitOnChar TAG_DELIMITER u).getD 1 []) := by
    simp [parseEnvelope, hsplit]
  constructor
  · simp [Crypto.encrypt, hkey, SecureBuffer.value, SecureBuffer.clear]
  · simp [Crypto.decrypt, hp, hkey, SecureBuffer.value, SecureBuffer.clear]

/-- Witness for the amended C2 at a concrete instance. -/
theorem close_then_missing_key_witness :
    Crypto.encrypt rigidSuite (Crypto.close cryptoW) ivBW (some ptW) =
      .error .NoKeyLoaded ∧
    Crypto.decrypt rigidSuite (Crypto.close cryptoW) (some ['a', ':', 'b']) =
      .error .NoKeyLoaded :=
  close_then_missing_key rigidSuite cryptoW ivBW ptW ['a', ':', 'b']
    rfl ⟨⟨some kW⟩, rfl⟩ (by decide)

/-- C1 (divergence exhibited): with `retryStatus` unset — the state
`Crypto.init` starts in, since no code in the source ever assigns
`options.retryStatus` — running `init` against a store that always reports
not-found never terminates: for every fuel bound it exhausts the fuel,
having called `setPassword` once and `getPassword` once per iteration,
instead of failing after one retry as the spec requires. -/
theorem init_unbounded_retry (randKeys : Nat → List Nat) (c : Crypto)
    (st : StoreState) (attempt fuel : Nat)
    (hrs : c.options.retryStatus = none) :
    ∃ st', Crypto.initFuel alwaysNotFoundKeychain randKeys c attempt fuel st =
        .diverge st' ∧
      st'.setCalls = st.setCalls + fuel ∧
      st'.getCalls = st.getCalls + fuel := by
  induction fuel generalizing st attempt with
  | zero => exact ⟨st, rfl, rfl, rfl⟩
  | succ fuel ih =>
    have step : Crypto.initFuel alwaysNotFoundKeychain randKeys c attempt
        (fuel + 1) st =
        Crypto.initFuel alwaysNotFoundKeychain randKeys c (attempt + 1) fuel
          { stored := some (hexEncode (randKeys attempt)),
            getCalls := st.getCalls + 1, setCalls := st.setCalls + 1 } := by
      simp [Crypto.initFuel, alwaysNotFoundKeychain, hrs]
    rw [step]
    obtain ⟨st', h1, h2, h3⟩ := ih _ (attempt + 1)
    exact ⟨st', h1, by simp only at h2; omega, by simp only at h3; omega⟩

/-- Witness for C1's divergence theorem at a concrete instance. -/
theorem init_unbounded_retry_witness :
    ∃ st', Crypto.initFuel alwaysNotFoundKeychain (fun _ => List.replicate 16 0)
        (Crypto.construct ⟨none, false⟩) 0 3 ⟨none, 0, 0⟩ = .diverge st' ∧
      st'.setCalls = 0 + 3 ∧ st'.getCalls = 0 + 3 :=
  init_unbounded_retry (fun _ => List.replicate 16 0)
    (Crypto.construct ⟨none, false⟩) ⟨none, 0, 0⟩ 0 3 rfl

/-- C6: against a store that reports not-found on the first `getPassword`
and succeeds thereafter, `init` terminates, having performed exactly one
`setPassword` — storing the freshly generated key, the 16 drawn random
bytes hex-encoded to 32 characters — and exactly one retried `getPassword`
(two in total), and loads the newly set key into the key cell. -/
theorem init_provisions_once (randKeys : Nat → List Nat) (c : Crypto)
    (fuel : Nat) (kb : SecureBuffer)
    (hkey : c.key = some kb) (hrs : c.options.retryStatus = none)
    (hlen : (randKeys 0).length = 16) (hfuel : 2 ≤ fuel) :
    Crypto.initFuel flakyFirstKeychain randKeys c 0 fuel ⟨none, 0, 0⟩ =
      .ok { c with noResetOnClose := c.options.noResetOnClose,
                   key := some (kb.consume (hexEncode (randKeys 0))) }
        ⟨some (hexEncode (randKeys 0)), 2, 1⟩ ∧
    (hexEncode (randKeys 0)).length = 32 := by
  obtain ⟨f, rfl⟩ : ∃ f, fuel = f + 2 := ⟨fuel - 2, by omega⟩
  refine ⟨?_, by rw [hexEncode_length, hlen]⟩
  show Crypto.initFuel flakyFirstKeychain randKeys c 0 (f + 1 + 1) ⟨none, 0, 0⟩ = _
  simp [Crypto.initFuel, flakyFirstKeychain, hrs, hkey]

/-- Witness for C6 at a concrete instance. -/
theorem init_provisions_once_witness :
    Crypto.initFuel flakyFirstKeychain (fun _ => List.replicate 16 7)
        (Crypto.construct ⟨none, false⟩) 0 2 ⟨none, 0, 0⟩ =
      .ok { Crypto.construct ⟨none, false⟩ with
            noResetOnClose :=
              (Crypto.construct ⟨none, false⟩).options.noResetOnClose,
            key := some (SecureBuffer.new.consume
              (hexEncode ((fun _ => List.replicate 16 7) 0))) }
        ⟨some (hexEncode ((fun _ => List.replicate 16 7) 0)), 2, 1⟩ ∧
    (hexEncode ((fun _ => List.replicate 16 7) 0)).length = 32 :=
  init_provisions_once (fun _ => List.replicate 16 7)
    (Crypto.construct ⟨none, false⟩) 2 SecureBuffer.new rfl rfl (by decide)
    (by omega)

/-- A successful `init` run preserves the non-nullness of `_key`. -/
theorem initFuel_preserves_key {σ : Type} {kc : Keychain σ}
    {randKeys : Nat → List Nat} {c c' : Crypto} {attempt fuel : Nat}
    {st st' : σ}
    (h : Crypto.initFuel kc randKeys c attempt fuel st = .ok c' st')
    (hk : c.key.isSome = true) : c'.key.isSome = true := by
  induction fuel generalizing attempt st with
  | zero => exact absurd h (by simp [Crypto.initFuel])
  | succ fuel ih =>
    rw [Crypto.initFuel] at h
    split at h
    · -- getPassword succeeded
      rename_i pw st1 hg
      simp only [InitResult.ok.injEq] at h
      rw [← h.1]
      simpa using hk
    · -- getPassword failed
      split at h
      · split at h
        · exact absurd h (by simp)
        · dsimp only at h
          split at h
          · exact ih h
          · exact absurd h (by simp)
      · exact absurd h (by simp)

/-- Every reachable instance has a non-null `_key`. -/
theorem reachable_key_isSome {c : Crypto} (h : Reachable c) :
    c.key.isSome = true := by
  induction h with
  | construct options => rfl
  | close hr ih =>
    rename_i c0
    unfold Crypto.close
    split
    · exact ih
    · simpa using ih
  | init hr hok ih => exact initFuel_preserves_key hok ih

/-- C10: in every reachable instance state — including after `close()` has
cleared the cell — the field `_key` is a (non-null) `SecureBuffer`, so the
missing-key guard `this._key == null` in `encrypt` is false and the
`KeychainPasswordCreationError` branch is unreachable. -/
theorem key_never_null (c : Crypto) (h : Reachable c) :
    c.key.isSome = true ∧
    ∀ (suite : CipherSuite) (ivBytes : List Nat) (t : Str),
      Crypto.encrypt suite c ivBytes (some t) ≠
        .error .KeychainPasswordCreationError := by
  have hk := reachable_key_isSome h
  refine ⟨hk, ?_⟩
  intro suite ivBytes t hcontra
  obtain ⟨kb, hkb⟩ := Option.isSome_iff_exists.mp hk
  cases hc : kb.contents with
  | none => simp [Crypto.encrypt, hkb, SecureBuffer.value, hc] at hcontra
  | some s => simp [Crypto.encrypt, hkb, SecureBuffer.value, hc] at hcontra

/-- Witness for C10 at a concrete reachable instance. -/
theorem key_never_null_witness :
    (Crypto.construct ⟨none, false⟩).key.isSome = true ∧
    ∀ (suite : CipherSuite) (ivBytes : List Nat) (t : Str),
      Crypto.encrypt suite (Crypto.construct ⟨none, false⟩) ivBytes (some t) ≠
        .error .KeychainPasswordCreationError :=
  key_never_null (Crypto.construct ⟨none, false⟩)
    (Reachable.construct ⟨none, false⟩)

/-- `Char.ofNat` inverts `Char.toNat` on ASCII codes. -/
theorem toNat_ofNat_lt : ∀ n, n < 128 → (Char.ofNat n).toNat = n := by
  decide

/-- Flipping one of the low seven bits of an ASCII code keeps it ASCII and
changes it. -/
theorem xor_bit_lt : ∀ n, n < 128 → ∀ b, b < 7 →
    n ^^^ (1 <<< b) < 128 ∧ n ^^^ (1 <<< b) ≠ n := by
  decide

/-- Hex characters are ASCII. -/
theorem hex_toNat_lt {c : Char} (hc : isHexChar c = true) : c.toNat < 128 := by
  simp only [isHexChar, Bool.or_eq_true, Bool.and_eq_true,
    decide_eq_true_eq] at hc
  omega

/-- Flipping a low bit of a hex character changes it. -/
theorem flipChar_ne {c : Char} {b : Nat} (hc : isHexChar c = true)
    (hb : b < 7) : flipChar b c ≠ c := by
  intro he
  have hn : c.toNat < 128 := hex_toNat_lt hc
  obtain ⟨hlt, hne⟩ := xor_bit_lt c.toNat hn b hb
  have ht : (flipChar b c).toNat = c.toNat ^^^ (1 <<< b) :=
    toNat_ofNat_lt _ hlt
  rw [he] at ht
  exact hne ht.symm

/-- Bit flips localised in the left part of an append. -/
theorem flipBit_append_left {a : Str} (y : Str) {i : Nat} (b : Nat)
    (h : i < a.length) : flipBit (a ++ y) i b = flipBit a i b ++ y := by
  induction a generalizing i with
  | nil => cases h
  | cons c a ih =>
    cases i with
    | zero => simp [flipBit]
    | succ i =>
      simp only [List.cons_append, flipBit, List.cons.injEq, true_and]
      exact ih (Nat.lt_of_succ_lt_succ h)

/-- Bit flips localised in the right part of an append. -/
theorem flipBit_append_right (a y : Str) (j b : Nat) :
    flipBit (a ++ y) (a.length + j) b = a ++ flipBit y j b := by
  induction a with
  | nil => simp
  | cons c a ih =>
    have hl : (c :: a).length + j = (a.length + j) + 1 := by
      simp [List.length_cons]; omega
    rw [hl]
    simp only [List.cons_append, flipBit, List.cons.injEq, true_and]
    exact ih

/-- Decomposing a list at an index. -/
theorem take_getD_drop {s : Str} {j : Nat} (h : j < s.length) :
    s.take j ++ s.getD j 'a' :: s.drop (j + 1) = s := by
  induction s generalizing j with
  | nil => cases h
  | cons c cs ih =>
    cases j with
    | zero => simp
    | succ j =>
      simp only [List.take_succ_cons, List.getD_cons_succ,
        List.drop_succ_cons, List.cons_append, List.cons.injEq, true_and]
      exact ih (Nat.lt_of_succ_lt_succ h)

/-- A bit flip rewrites the list into take/changed-char/drop form. -/
theorem flipBit_rep {s : Str} {j : Nat} (b : Nat) (h : j < s.length) :
    flipBit s j b = s.take j ++ flipChar b (s.getD j 'a') :: s.drop (j + 1) := by
  induction s generalizing j with
  | nil => cases h
  | cons c cs ih =>
    cases j with
    | zero => simp [flipBit]
    | succ j =>
      simp only [flipBit, List.take_succ_cons, List.getD_cons_succ,
        List.drop_succ_cons, List.cons_append, List.cons.injEq, true_and]
      exact ih (Nat.lt_of_succ_lt_succ h)

/-- Reading off the marked character of a decomposition. -/
theorem getD_length_append (a : Str) (c : Char) (y : Str) :
    (a ++ c :: y).getD a.length 'a' = c := by
  induction a with
  | nil => rfl
  | cons d a ih => simpa using ih

/-- The default-read of a valid index is a member. -/
theorem getD_mem {s : Str} {j : Nat} (h : j < s.length) : s.getD j 'a' ∈ s := by
  induction s generalizing j with
  | nil => cases h
  | cons c cs ih =>
    cases j with
    | zero => simp
    | succ j =>
      simp only [List.getD_cons_succ]
      exact List.mem_cons_of_mem _ (ih (Nat.lt_of_succ_lt_succ h))

/-- C4 (amended): flipping any low bit of any character in the ciphertext or
tag portion of a valid envelope (positions past the 12 nonce characters,
excluding the delimiter itself) makes `decrypt` fail and never return a
plaintext: with `AuthDecryptError` (the spec's `DecryptionError`) whenever
the corrupted envelope still splits into two segments, but with
`InvalidEncryptedFormatError` when the flip turns a hex character into the
delimiter character itself. -/
theorem tampered_envelope_rejected (suite : CipherSuite) (c : Crypto)
    (k ct tag : Str) (ivBytes : List Nat) (s : Str) (i b : Nat)
    (hkey : c.key = some ⟨some k⟩)
    (henc : suite.enc k (hexEncode ivBytes) s = (ct, tag))
    (hct : IsHexStr ct) (htag : IsHexStr tag) (hiv : ivBytes.length = 6)
    (hint : ∀ ct' tag', (ct', tag') ≠ (ct, tag) →
      suite.dec k (hexEncode ivBytes) ct' tag' = none)
    (hb : b < 7) (hi : 12 ≤ i) (hne : i ≠ 12 + ct.length)
    (hilt : i < 13 + ct.length + tag.length) :
    Crypto.encrypt suite c ivBytes (some s) =
      .ok (some (hexEncode ivBytes ++ ct ++ TAG_DELIMITER :: tag)) ∧
    (Crypto.decrypt suite c
        (some (flipBit (hexEncode ivBytes ++ ct ++ TAG_DELIMITER :: tag) i b)) =
          .error .InvalidEncryptedFormatError ∨
      Crypto.decrypt suite c
        (some (flipBit (hexEncode ivBytes ++ ct ++ TAG_DELIMITER :: tag) i b)) =
          .error .AuthDecryptError) ∧
    ∀ r, Crypto.decrypt suite c
        (some (flipBit (hexEncode ivBytes ++ ct ++ TAG_DELIMITER :: tag) i b)) ≠
      .ok r := by
  have hivlen : (hexEncode ivBytes).length = 12 := by
    rw [hexEncode_length, hiv]
  have hivnd : TAG_DELIMITER ∉ hexEncode ivBytes :=
    delim_not_mem_of_isHexStr (isHexStr_hexEncode ivBytes)
  have hctnd : TAG_DELIMITER ∉ ct := delim_not_mem_of_isHexStr hct
  have htagnd : TAG_DELIMITER ∉ tag := delim_not_mem_of_isHexStr htag
  have hmain : Crypto.decrypt suite c
      (some (flipBit (hexEncode ivBytes ++ ct ++ TAG_DELIMITER :: tag) i b)) =
        .error .InvalidEncryptedFormatError ∨
      Crypto.decrypt suite c
      (some (flipBit (hexEncode ivBytes ++ ct ++ TAG_DELIMITER :: tag) i b)) =
        .error .AuthDecryptError := by
    by_cases hcase : i < 12 + ct.length
    · -- the flipped character is in the ciphertext portion
      obtain ⟨j, rfl⟩ : ∃ j, i = (hexEncode ivBytes).length + j :=
        ⟨i - 12, by omega⟩
      have hj : j < ct.length := by omega
      have hflip1 : flipBit (hexEncode ivBytes ++ ct ++ TAG_DELIMITER :: tag)
          ((hexEncode ivBytes).length + j) b =
          (hexEncode ivBytes ++ flipBit ct j b) ++ TAG_DELIMITER :: tag := by
        rw [flipBit_append_left _ b (by rw [List.length_append]; omega),
          flipBit_append_right]
      rw [hflip1]
      have hrep := flipBit_rep b hj
      have hc0mem : ct.getD j 'a' ∈ ct := getD_mem hj
      have hc1ne : flipChar b (ct.getD j 'a') ≠ ct.getD j 'a' :=
        flipChar_ne (hct _ hc0mem) hb
      by_cases hdel : flipChar b (ct.getD j 'a') = TAG_DELIMITER
      · left
        rw [hrep, hdel]
        have hA1 : TAG_DELIMITER ∉ hexEncode ivBytes ++ ct.take j := by
          intro hm
          rcases List.mem_append.mp hm with hm | hm
          · exact hivnd hm
          · exact hctnd (List.take_subset _ _ hm)
        have hA2 : TAG_DELIMITER ∉ ct.drop (j + 1) :=
          fun hm => hctnd (List.drop_subset _ _ hm)
        have hpn : parseEnvelope ((hexEncode ivBytes ++ ct.take j) ++
            TAG_DELIMITER :: (ct.drop (j + 1) ++ TAG_DELIMITER :: tag)) =
            none := by
          unfold parseEnvelope
          rw [splitOnChar_append _ hA1, splitOnChar_append _ hA2,
            splitOnChar_no_sep htagnd]
          simp
        simp only [List.append_assoc, List.cons_append] at hpn
        simp [Crypto.decrypt, hpn]
      · right
        have hctnd' : TAG_DELIMITER ∉ flipBit ct j b := by
          rw [hrep]
          intro hm
          rcases List.mem_append.mp hm with hm | hm
          · exact hctnd (List.take_subset _ _ hm)
          · rcases List.mem_cons.mp hm with hm | hm
            · exact hdel hm.symm
            · exact hctnd (List.drop_subset _ _ hm)
        have hp : parseEnvelope (hexEncode ivBytes ++ flipBit ct j b ++
            TAG_DELIMITER :: tag) = some (hexEncode ivBytes, flipBit ct j b, tag) :=
          parseEnvelope_eq hivlen hivnd hctnd' htagnd
        have hctne : flipBit ct j b ≠ ct := by
          intro he
          have h1 : (flipBit ct j b).getD (ct.take j).length 'a' =
              flipChar b (ct.getD j 'a') := by
            rw [hrep]; exact getD_length_append _ _ _
          have hlenj : (ct.take j).length = j := by
            rw [List.length_take]; omega
          rw [he, hlenj] at h1
          exact hc1ne h1.symm
        have hdec0 : suite.dec k (hexEncode ivBytes) (flipBit ct j b) tag =
            none :=
          hint _ _ (fun hpair => hctne (congrArg Prod.fst hpair))
        rw [decrypt_eq suite hkey rfl hp, hdec0]
    · -- the flipped character is in the tag portion
      obtain ⟨j, hj, rfl⟩ : ∃ j, j < tag.length ∧
          i = (hexEncode ivBytes ++ ct).length + (j + 1) := by
        refine ⟨i - (13 + ct.length), by omega, ?_⟩
        rw [List.length_append, hivlen]
        omega
      have hflip2 : flipBit (hexEncode ivBytes ++ ct ++ TAG_DELIMITER :: tag)
          ((hexEncode ivBytes ++ ct).length + (j + 1)) b =
          (hexEncode ivBytes ++ ct) ++ TAG_DELIMITER :: flipBit tag j b := by
        rw [flipBit_append_right]
        rfl
      rw [hflip2]
      have hrep := flipBit_rep b hj
      have hc0mem : tag.getD j 'a' ∈ tag := getD_mem hj
      have hc1ne : flipChar b (tag.getD j 'a') ≠ tag.getD j 'a' :=
        flipChar_ne (htag _ hc0mem) hb
      have hAnd : TAG_DELIMITER ∉ hexEncode ivBytes ++ ct := by
        intro hm
        rcases List.mem_append.mp hm with hm | hm
        · exact hivnd hm
        · exact hctnd hm
      by_cases hdel : flipChar b (tag.getD j 'a') = TAG_DELIMITER
      · left
        rw [hrep, hdel]
        have hA2 : TAG_DELIMITER ∉ tag.take j :=
          fun hm => htagnd (List.take_subset _ _ hm)
        have hA3 : TAG_DELIMITER ∉ tag.drop (j + 1) :=
          fun hm => htagnd (List.drop_subset _ _ hm)
        have hpn : parseEnvelope ((hexEncode ivBytes ++ ct) ++
            TAG_DELIMITER :: (tag.take j ++ TAG_DELIMITER :: tag.drop (j + 1))) =
            none := by
          unfold parseEnvelope
          rw [splitOnChar_append _ hAnd, splitOnChar_append _ hA2,
            splitOnChar_no_sep hA3]
          simp
        simp only [List.append_assoc, List.cons_append] at hpn
        simp [Crypto.decrypt, hpn]
      · right
        have htagnd' : TAG_DELIMITER ∉ flipBit tag j b := by
          rw [hrep]
          intro hm
          rcases List.mem_append.mp hm with hm | hm
          · exact htagnd (List.take_subset _ _ hm)
          · rcases List.mem_cons.mp hm with hm | hm
            · exact hdel hm.symm
            · exact htagnd (List.drop_subset _ _ hm)
        have hp : parseEnvelope (hexEncode ivBytes ++ ct ++
            TAG_DELIMITER :: flipBit tag j b) =
            some (hexEncode ivBytes, ct, flipBit tag j b) :=
          parseEnvelope_eq hivlen hivnd hctnd htagnd'
        have htagne : flipBit tag j b ≠ tag := by
          intro he
          have h1 : (flipBit tag j b).getD (tag.take j).length 'a' =
              flipChar b (tag.getD j 'a') := by
            rw [hrep]; exact getD_length_append _ _ _
          have hlenj : (tag.take j).length = j := by
            rw [List.length_take]; omega
          rw [he, hlenj] at h1
          exact hc1ne h1.symm
        have hdec0 : suite.dec k (hexEncode ivBytes) ct (flipBit tag j b) =
            none :=
          hint _ _ (fun hpair => htagne (congrArg Prod.snd hpair))
        rw [decrypt_eq suite hkey rfl hp, hdec0]
  refine ⟨?_, hmain, ?_⟩
  · rw [encrypt_eq suite ivBytes s hkey rfl, henc]
  · intro r hr
    rcases hmain with h | h <;> rw [hr] at h <;> exact Except.noConfusion h

/-- C4 counterexample: flipping bit 3 of the envelope character at position
13 — inside the ciphertext portion of a valid envelope — turns the hex
character `2` into the delimiter `:` itself, so `decrypt` fails with
`InvalidEncryptedFormatError`, not with the decryption error the claim
requires for every ciphertext/tag bit flip. -/
theorem tamper_decrypt_counterexample :
    Crypto.encrypt rigidSuite cryptoW ivBW (some ptW) = .ok (some envW) ∧
    Crypto.decrypt rigidSuite cryptoW (some envW) = .ok (some ptW) ∧
    (12 ≤ 13 ∧ 13 < 12 + ctW.length) ∧
    flipBit envW 13 3 ≠ envW ∧
    Crypto.decrypt rigidSuite cryptoW (some (flipBit envW 13 3)) =
      .error .InvalidEncryptedFormatError ∧
    CryptoError.InvalidEncryptedFormatError ≠ CryptoError.AuthDecryptError := by
  decide

/-- Witness for the amended C4 at a concrete instance. -/
theorem tampered_envelope_rejected_witness :
    Crypto.encrypt rigidSuite cryptoW ivBW (some ptW) =
      .ok (some (hexEncode ivBW ++ ctW ++ TAG_DELIMITER :: tagW)) ∧
    (Crypto.decrypt rigidSuite cryptoW
        (some (flipBit (hexEncode ivBW ++ ctW ++ TAG_DELIMITER :: tagW) 13 0)) =
          .error .InvalidEncryptedFormatError ∨
      Crypto.decrypt rigidSuite cryptoW
        (some (flipBit (hexEncode ivBW ++ ctW ++ TAG_DELIMITER :: tagW) 13 0)) =
          .error .AuthDecryptError) ∧
    ∀ r, Crypto.decrypt rigidSuite cryptoW
        (some (flipBit (hexEncode ivBW ++ ctW ++ TAG_DELIMITER :: tagW) 13 0)) ≠
      .ok r :=
  tampered_envelope_rejected rigidSuite cryptoW kW ctW tagW ivBW ptW 13 0
    rfl rfl (by decide) (by decide) (by decide)
    (fun ct' tg' hne => by
      show (if kW = kW ∧ hexEncode ivBW = ivHexW ∧ ct' = ctW ∧ tg' = tagW
            then some ptW else none) = none
      exact if_neg (fun hcond => hne (by
        obtain ⟨-, -, h3, h4⟩ := hcond
        rw [h3, h4])))
    (by decide) (by decide) (by decide) (by decide)
